import Mathlib

set_option maxRecDepth 8000

/-! Verification of the receipt amount-extraction core of the
beautiful-tips-calculator repository.

The embedding below translates the TypeScript sources
`src/lib/number-utils.ts` (parseCurrencyString, detectNumberFormat,
findAmountsInText, isValidReceiptAmount, validateTotalRelationship,
categorizeAmount), the scoring and selection engine
`extractAmountsFromText` shared by `src/lib/receipt-ocr.ts` and the
`extractAmounts` callback of `src/components/receipt-scanner.tsx`, and
the progress-reporting state updates of the multi-pass OCR driver in
`src/components/receipt-scanner.tsx`.

JavaScript numbers are modelled as exact rationals, JavaScript strings
as Lean strings, and the regular expressions used by the sources as a
small backtracking matcher with JS priority semantics (greedy
quantifiers, leftmost match, word boundaries). -/

/-! ## Characters and basic string helpers -/

/-- JS whitespace: the character class matched by a backslash-s in a
JavaScript regular expression. -/
def isJsSpace (c : Char) : Bool :=
  let n := c.toNat
  n = 32 || n = 9 || n = 10 || n = 11 || n = 12 || n = 13 || n = 160 || n = 5760 ||
    (8192 ≤ n && n ≤ 8202) || n = 8232 || n = 8233 || n = 8239 || n = 8287 ||
    n = 12288 || n = 65279

/-- ASCII decimal digit. -/
def isDigitChar (c : Char) : Bool := 48 ≤ c.toNat && c.toNat ≤ 57

/-- JS word character (backslash-w), used by word-boundary assertions. -/
def isWordChar (c : Char) : Bool :=
  isDigitChar c || (65 ≤ c.toNat && c.toNat ≤ 90) ||
    (97 ≤ c.toNat && c.toNat ≤ 122) || c.toNat = 95

/-- The ASCII apostrophe. -/
def apos : Char := Char.ofNat 39

/-- The curly right single quote U+2019 accepted as a thousands separator. -/
def curlyApos : Char := Char.ofNat 8217

/-- Non-breaking space U+00A0. -/
def nbsp : Char := Char.ofNat 160

/-- Narrow non-breaking space U+202F. -/
def narrowNbsp : Char := Char.ofNat 8239

/-- The currency symbols recognised by the receipt patterns. -/
def isCurrencySym (c : Char) : Bool :=
  let n := c.toNat
  n = 36 || n = 8364 || n = 163 || n = 165 || n = 8377 || n = 8381

/-- JS String.prototype.split with a one-character separator; an empty
input yields one empty field, like in JS. -/
def splitOnChar (sep : Char) : List Char → List (List Char)
  | [] => [[]]
  | c :: rest =>
    if c = sep then [] :: splitOnChar sep rest
    else
      match splitOnChar sep rest with
      | [] => [[c]]
      | g :: gs => (c :: g) :: gs

/-- Numeric value of a digit string, most significant digit first. -/
def digitsToNat (l : List Char) : Nat := l.foldl (fun acc c => 10 * acc + (c.toNat - 48)) 0

/-- JS String.prototype.lastIndexOf for a single character: the index of
the last occurrence, or -1 when absent. -/
def lastIndexOfChar (c : Char) (l : List Char) : Int :=
  (l.foldl (fun (st : Int × Int) d => (st.1 + 1, if d = c then st.1 else st.2)) (0, -1)).2

/-- JS String.prototype.trim. -/
def trimWs (l : List Char) : List Char :=
  ((l.dropWhile isJsSpace).reverse.dropWhile isJsSpace).reverse

/-- Replace each maximal run of whitespace by a single space; the flag
records whether the previous character was whitespace. -/
def collapseWsAux : Bool → List Char → List Char
  | _, [] => []
  | prevWs, c :: rest =>
    if isJsSpace c then
      if prevWs then collapseWsAux true rest
      else ' ' :: collapseWsAux true rest
    else c :: collapseWsAux false rest

/-- JS line.replace of whitespace runs by one space followed by trim,
as used for candidate context strings. -/
def normalizeWs (l : List Char) : List Char := trimWs (collapseWsAux false l)

/-- Uppercase one ASCII character, as JS toUpperCase does on the
receipt texts in scope. -/
def upperChar (c : Char) : Char :=
  if 97 ≤ c.toNat ∧ c.toNat ≤ 122 then Char.ofNat (c.toNat - 32) else c

/-- Uppercased character list of a string. -/
def upperStr (s : String) : List Char := s.data.map upperChar

/-! ## A small backtracking regex matcher with JS priority semantics -/

/-- Syntax of the JavaScript regular expressions used by the receipt
scanner: character classes, sequencing, prioritized alternation, greedy
star, and zero-width assertions over the neighbouring characters (word
boundaries, multiline start-of-line). -/
inductive RE where
  | eps : RE
  | cls : (Char → Bool) → RE
  | seq : RE → RE → RE
  | alt : RE → RE → RE
  | star : RE → RE
  | assrt : (Option Char → Option Char → Bool) → RE

/-- All ways a regex matches a prefix of the input, as pairs of the last
consumed character and the remaining input, listed in JS backtracking
priority order (greedy quantifiers first, left alternative first).
Fuel bounds the recursion depth; every wrapper below supplies enough
fuel for its pattern and input, and star iterations that consume no
input are dropped, as JS repetition also stops on empty matches. -/
def matchesOf : Nat → RE → Option Char → List Char → List (Option Char × List Char)
  | 0, _, _, _ => []
  | _ + 1, RE.eps, prev, s => [(prev, s)]
  | _ + 1, RE.cls p, _, s =>
    match s with
    | [] => []
    | c :: rest => if p c then [(some c, rest)] else []
  | _ + 1, RE.assrt f, prev, s => if f prev s.head? then [(prev, s)] else []
  | fuel + 1, RE.alt a b, prev, s => matchesOf fuel a prev s ++ matchesOf fuel b prev s
  | fuel + 1, RE.seq a b, prev, s =>
    (matchesOf fuel a prev s).flatMap fun pr => matchesOf fuel b pr.1 pr.2
  | fuel + 1, RE.star r, prev, s =>
    ((matchesOf fuel r prev s).filter fun pr => pr.2.length < s.length).flatMap
      (fun pr => matchesOf fuel (RE.star r) pr.1 pr.2) ++ [(prev, s)]

/-- Fuel that comfortably bounds the matcher's recursion depth for the
scanner's patterns on an input of the given length. -/
def fuelFor (n : Nat) : Nat := 400 * (n + 2)

/-- Does the pattern match starting at some position at or after the
current one (JS RegExp.prototype.test)? -/
def testFromAux (fuel : Nat) (re : RE) : Option Char → List Char → Bool
  | prev, [] => !(matchesOf fuel re prev []).isEmpty
  | prev, c :: rest =>
    if (matchesOf fuel re prev (c :: rest)).isEmpty then testFromAux fuel re (some c) rest
    else true

/-- JS RegExp.prototype.test on a whole character list. -/
def reTest (re : RE) (s : List Char) : Bool := testFromAux (fuelFor s.length) re none s

/-- Global scan collecting every match in order, resuming after the end
of each match, as JS String.prototype.match with the global flag. -/
def scanAllAux (fuel : Nat) (re : RE) : Nat → Option Char → List Char → List (List Char)
  | 0, _, _ => []
  | gas + 1, prev, s =>
    match (matchesOf fuel re prev s).head? with
    | some pr =>
      let k := s.length - pr.2.length
      if k = 0 then
        match s with
        | [] => []
        | c :: rest => scanAllAux fuel re gas (some c) rest
      else s.take k :: scanAllAux fuel re gas pr.1 pr.2
    | none =>
      match s with
      | [] => []
      | c :: rest => scanAllAux fuel re gas (some c) rest

/-- All matches of a pattern over a character list. -/
def reScanAll (re : RE) (s : List Char) : List (List Char) :=
  scanAllAux (fuelFor s.length) re (s.length + 1) none s

/-! ## Pattern constructors and the scanner's concrete patterns -/

/-- Literal character sequence. -/
def rlit (cs : List Char) : RE := cs.foldr (fun c acc => RE.seq (RE.cls fun d => d = c) acc) RE.eps

/-- Literal string pattern. -/
def slit (s : String) : RE := rlit s.data

/-- Prioritized alternation of a list of patterns, left branch first. -/
def ralts : List RE → RE
  | [] => RE.cls fun _ => false
  | [r] => r
  | r :: rs => RE.alt r (ralts rs)

/-- Greedy option: prefer matching over skipping. -/
def ropt (r : RE) : RE := RE.alt r RE.eps

/-- Greedy one-or-more repetition. -/
def rplus (r : RE) : RE := RE.seq r (RE.star r)

/-- JS word-boundary assertion. -/
def wbRE : RE := RE.assrt fun prev next =>
  (match prev with | none => false | some c => isWordChar c)
    != (match next with | none => false | some c => isWordChar c)

/-- One decimal digit. -/
def digitRE : RE := RE.cls isDigitChar

/-- One to three digits, greedy. -/
def rep13 : RE := RE.seq digitRE (ropt (RE.seq digitRE (ropt digitRE)))

/-- One or two digits, greedy. -/
def rep12 : RE := RE.seq digitRE (ropt digitRE)

/-- Exactly three digits. -/
def rep3 : RE := RE.seq digitRE (RE.seq digitRE digitRE)

/-- A dot or comma, the decimal separator class. -/
def dotCommaRE : RE := RE.cls fun c => c = '.' || c = ','

/-- The grouping separator class: dot, comma, apostrophe, curly
apostrophe or whitespace. -/
def groupSepRE : RE := RE.cls fun c =>
  c = '.' || c = ',' || c = apos || c = curlyApos || isJsSpace c

/-- Zero or more whitespace characters. -/
def wsStarRE : RE := RE.star (RE.cls isJsSpace)

/-- The token pattern of detectNumberFormat in number-utils.ts:
word boundary, 1-3 digits, grouped triples, optional 1-2 decimals,
word boundary. -/
def detectTokenRE : RE :=
  RE.seq wbRE (RE.seq rep13 (RE.seq (RE.star (RE.seq groupSepRE rep3))
    (RE.seq (ropt (RE.seq dotCommaRE rep12)) wbRE)))

/-- Capture group 1 of RECEIPT_AMOUNT_PATTERN in number-utils.ts:
either a grouped number with at least one separated triple, or a bare
digit run, each with an optional 1-2 digit decimal tail. -/
def group1RE : RE :=
  RE.alt
    (RE.seq rep13 (RE.seq (rplus (RE.seq groupSepRE rep3)) (ropt (RE.seq dotCommaRE rep12))))
    (RE.seq (rplus digitRE) (ropt (RE.seq dotCommaRE rep12)))

/-- Optional leading currency symbol with trailing whitespace. -/
def leadSymRE : RE := ropt (RE.seq (RE.cls isCurrencySym) wsStarRE)

/-- Optional trailing currency symbol with leading whitespace. -/
def trailSymRE : RE := ropt (RE.seq wsStarRE (RE.cls isCurrencySym))

/-- One attempt of RECEIPT_AMOUNT_PATTERN at the current position,
returning the text of capture group 1 together with the matcher state
after the full match; candidates are enumerated in JS backtracking
order and the first full success is kept. -/
def execReceiptAt (fuel : Nat) (prev : Option Char) (s : List Char) :
    Option (List Char × Option Char × List Char) :=
  ((matchesOf fuel leadSymRE prev s).flatMap fun a =>
    (matchesOf fuel group1RE a.1 a.2).flatMap fun b =>
      (matchesOf fuel trailSymRE b.1 b.2).map fun c =>
        (a.2.take (a.2.length - b.2.length), c.1, c.2)).head?

/-- Scan one line for all RECEIPT_AMOUNT_PATTERN matches, collecting
the capture-group-1 strings in order, as JS String.prototype.matchAll. -/
def scanReceiptAux (fuel : Nat) : Nat → Option Char → List Char → List (List Char)
  | 0, _, _ => []
  | gas + 1, prev, s =>
    match execReceiptAt fuel prev s with
    | some t =>
      if s.length - t.2.2.length = 0 then
        match s with
        | [] => []
        | c :: rest => scanReceiptAux fuel gas (some c) rest
      else t.1 :: scanReceiptAux fuel gas t.2.1 t.2.2
    | none =>
      match s with
      | [] => []
      | c :: rest => scanReceiptAux fuel gas (some c) rest

/-- The capture-group-1 amount tokens found on one raw line. -/
def lineAmountTokens (line : List Char) : List (List Char) :=
  scanReceiptAux (fuelFor line.length) (line.length + 1) none line

/-! ## Data model of number-utils.ts -/

/-- The number-format hint of number-utils.ts. -/
inductive NumberFormat where
  | european : NumberFormat
  | us : NumberFormat
  | mixed : NumberFormat
deriving DecidableEq

/-- A candidate amount found in OCR text: value, the whitespace-normalized
source line as context, and its zero-based line index. -/
structure ExtractedAmount where
  value : ℚ
  context : String
  lineIndex : Nat
deriving DecidableEq

/-- The semantic category assigned by categorizeAmount. -/
inductive Category where
  | total : Category
  | subtotal : Category
  | tax : Category
  | tip : Category
  | item : Category
  | payment : Category
  | unknown : Category
deriving DecidableEq

/-- An ExtractedAmount together with its category. -/
structure CategorizedAmount where
  value : ℚ
  context : String
  lineIndex : Nat
  category : Category
deriving DecidableEq

/-- The result of validateTotalRelationship. -/
structure ValidationResult where
  valid : Bool
  confidence : ℚ
deriving DecidableEq

/-! ## parseCurrencyString -/

/-- The cleaning pass of parseCurrencyString: strip every character that
is not a digit, separator, apostrophe, whitespace or minus; turn
non-breaking spaces into plain spaces; turn curly apostrophes into
ASCII apostrophes; trim. -/
def cleanedOf (s : String) : List Char :=
  trimWs (((s.data.filter fun c =>
      isDigitChar c || c = '.' || c = ',' || c = apos || c = curlyApos ||
        isJsSpace c || c = '-')
    |>.map fun c => if c = nbsp || c = narrowNbsp then ' ' else c)
    |>.map fun c => if c = curlyApos then apos else c)

/-- The normalization pass of parseCurrencyString: remove whitespace and
apostrophes, then every minus sign except one in leading position. -/
def normalizedOf (s : String) : List Char :=
  let n1 := ((cleanedOf s).filter fun c => !isJsSpace c).filter fun c => c ≠ apos
  match n1 with
  | [] => []
  | c :: rest => c :: rest.filter fun d => d ≠ '-'

/-- Decimal-separator resolution of parseCurrencyString: with both
separators present the later one wins; with a single separator kind it
is decimal only when the trailing group has at most two digits; a
three-digit trailing group is grouping under every format hint. -/
def chooseDecimalSeparator (normalized : List Char) (formatHint : NumberFormat) : Option Char :=
  let hasComma := normalized.contains ','
  let hasDot := normalized.contains '.'
  if hasComma && hasDot then
    some (if lastIndexOfChar ',' normalized > lastIndexOfChar '.' normalized then ',' else '.')
  else
    match (if hasComma then some ',' else if hasDot then some '.' else none) with
    | none => none
    | some sep =>
      let parts := splitOnChar sep normalized
      let lastPart := parts.getLastD []
      let isSingleSeparator := parts.length = 2
      if lastPart.length ≤ 2 then some sep
      else if lastPart.length = 3 && !isSingleSeparator then none
      else if lastPart.length = 3 && isSingleSeparator then
        if formatHint = NumberFormat.european then none else none
      else none

/-- Is the list a nonempty run of digits (the JS anchors-digits-anchors
regular expression)? -/
def allDigits (l : List Char) : Bool := l.all isDigitChar

/-- parseCurrencyString of number-utils.ts: clean and normalize the
input, resolve the decimal separator, then assemble an exact rational;
null is modelled as none. -/
def parseCurrencyString (valueStr : String)
    (formatHint : NumberFormat := NumberFormat.mixed) : Option ℚ :=
  let cleaned := cleanedOf valueStr
  if cleaned.isEmpty || !cleaned.any isDigitChar then none
  else
    let normalized := normalizedOf valueStr
    match chooseDecimalSeparator normalized formatHint with
    | some sep =>
      let parts := splitOnChar sep normalized
      let fractionPart := parts.getLastD []
      let integerPart := parts.dropLast.flatten.filter fun c => !(c = '.' || c = ',')
      if integerPart.isEmpty || !allDigits integerPart ||
          fractionPart.isEmpty || !allDigits fractionPart then none
      else
        some ((digitsToNat integerPart : ℚ) +
          (digitsToNat fractionPart : ℚ) / (10 : ℚ) ^ fractionPart.length)
    | none =>
      let integerLike := normalized.filter fun c => !(c = '.' || c = ',')
      match integerLike with
      | [] => none
      | c :: rest =>
        if c = '-' then
          if !rest.isEmpty && allDigits rest then some (-(digitsToNat rest : ℚ)) else none
        else if allDigits (c :: rest) then some (digitsToNat (c :: rest) : ℚ)
        else none

/-! ## detectNumberFormat -/

/-- Strip whitespace and apostrophes from a matched token before
classifying it. -/
def stripSpacesApos (l : List Char) : List Char :=
  l.filter fun c => !(isJsSpace c || c = apos || c = curlyApos)

/-- One step of detectNumberFormat's tally loop; the pair carries the
european and us counts in that order. -/
def detectStep (counts : Nat × Nat) (raw : List Char) : Nat × Nat :=
  let m := stripSpacesApos raw
  if m.contains ',' && m.contains '.' then
    if lastIndexOfChar ',' m > lastIndexOfChar '.' m then (counts.1 + 1, counts.2)
    else (counts.1, counts.2 + 1)
  else if m.contains ',' && !m.contains '.' then
    if ((splitOnChar ',' m).getLastD []).length ≤ 2 then (counts.1 + 1, counts.2)
    else (counts.1, counts.2 + 1)
  else if !m.contains ',' && m.contains '.' then
    if ((splitOnChar '.' m).getLastD []).length ≤ 2 then (counts.1, counts.2 + 1)
    else (counts.1 + 1, counts.2)
  else counts

/-- The grouped-number tokens a text offers as formatting evidence. -/
def detectTokensOf (text : String) : List (List Char) := reScanAll detectTokenRE text.data

/-- detectNumberFormat of number-utils.ts. -/
def detectNumberFormat (text : String) : NumberFormat :=
  let ms := detectTokensOf text
  if ms.length < 3 then NumberFormat.us
  else
    let counts := ms.foldl detectStep (0, 0)
    if (counts.1 : ℚ) > (counts.2 : ℚ) * (3 / 2) then NumberFormat.european
    else if (counts.2 : ℚ) > (counts.1 : ℚ) * (3 / 2) then NumberFormat.us
    else NumberFormat.mixed

/-! ## findAmountsInText and the validity predicate -/

/-- isValidReceiptAmount of number-utils.ts; rationals are always
finite and never NaN, so those two checks are vacuous here. -/
def isValidReceiptAmount (v : ℚ) : Bool := decide (0 < v) && decide (v < 100000)

/-- One matched token's contribution to findAmountsInText: parse it
with the text-wide format hint and keep it only when the value passes
the validity predicate. -/
def amountOfToken (formatHint : NumberFormat) (lineText : String) (idx : Nat)
    (tok : List Char) : Option ExtractedAmount :=
  match parseCurrencyString (String.mk tok) formatHint with
  | none => none
  | some v => if isValidReceiptAmount v then some ⟨v, lineText, idx⟩ else none

/-- findAmountsInText of number-utils.ts: split into lines, detect a
format hint on the whole text, scan every line for amount tokens, parse
each and keep the valid ones with their normalized line context. -/
def findAmountsInText (text : String) : List ExtractedAmount :=
  let lines := splitOnChar '\n' text.data
  let formatHint := detectNumberFormat text
  lines.enum.flatMap fun p =>
    (lineAmountTokens p.2).filterMap
      (amountOfToken formatHint (String.mk (normalizeWs p.2)) p.1)

/-! ## validateTotalRelationship -/

/-- Order of the JS stable sort by descending lineIndex. -/
def lineIdxRel (a b : ExtractedAmount) : Prop := b.lineIndex ≤ a.lineIndex

instance : DecidableRel lineIdxRel := fun a b => inferInstanceAs (Decidable (b.lineIndex ≤ a.lineIndex))

instance : IsTotal ExtractedAmount lineIdxRel :=
  ⟨fun a b => (Nat.le_total b.lineIndex a.lineIndex).imp id id⟩

instance : IsTrans ExtractedAmount lineIdxRel :=
  ⟨fun _ _ _ hab hbc => Nat.le_trans hbc hab⟩

/-- The subtotal keyword pattern of validateTotalRelationship and
categorizeAmount. -/
def subtotalRE : RE := ralts
  [RE.seq (slit "SUB") (RE.seq wsStarRE (slit "TOTAL")),
   slit "SUBTOTAL", slit "SUB-TOTAL",
   RE.seq (slit "BEFORE") (RE.seq wsStarRE (slit "TAX"))]

/-- The tax keyword pattern of validateTotalRelationship, with a
trailing word boundary. -/
def taxWbRE : RE :=
  RE.seq (ralts [slit "TAX", slit "HST", slit "GST", slit "PST", slit "VAT"]) wbRE

/-- The tip keyword pattern of validateTotalRelationship, with a
trailing word boundary. -/
def tipWbRE : RE :=
  RE.seq (ralts [slit "TIP", slit "GRATUITY", slit "SERVICE"]) wbRE

/-- The up-to-5 most recent subtotal-keyword candidates, most recent
first. -/
def subtotalCandidatesOf (all : List ExtractedAmount) : List ExtractedAmount :=
  (List.insertionSort lineIdxRel
    (all.filter fun a => reTest subtotalRE (upperStr a.context))).take 5

/-- The up-to-5 most recent tax-keyword candidates, most recent first. -/
def taxCandidatesOf (all : List ExtractedAmount) : List ExtractedAmount :=
  (List.insertionSort lineIdxRel
    (all.filter fun a => reTest taxWbRE (upperStr a.context))).take 5

/-- The up-to-5 most recent tip-keyword candidates, most recent first. -/
def tipCandidatesOf (all : List ExtractedAmount) : List ExtractedAmount :=
  (List.insertionSort lineIdxRel
    (all.filter fun a => reTest tipWbRE (upperStr a.context))).take 5

/-- Every expected total the validator's nested loops visit, in loop
order: one subtotal candidate plus a tax option (0 or a tax value) plus
a tip option (0 or a tip value). -/
def comboTotalsOf (all : List ExtractedAmount) : List ℚ :=
  (subtotalCandidatesOf all).flatMap fun s =>
    (0 :: (taxCandidatesOf all).map fun c => c.value).flatMap fun tx =>
      (0 :: (tipCandidatesOf all).map fun c => c.value).map fun tp => s.value + tx + tp

/-- Keep the smaller candidate ratio, where none stands for the
initial positive infinity. -/
def updBest (b : Option ℚ) (r : ℚ) : Option ℚ :=
  match b with
  | none => some r
  | some x => if r < x then some r else some x

/-- One iteration of the validator's loop body: skip non-positive
expected totals, otherwise fold the relative error into the running
best ratio and the exact-ish flag. -/
def ratioStep (total : ℚ) (acc : Option ℚ × Bool) (e : ℚ) : Option ℚ × Bool :=
  if e ≤ 0 then acc
  else
    let ratio := |total - e| / e
    (updBest acc.1 ratio, acc.2 || decide (ratio ≤ 1 / 50))

/-- Comparison of the running best ratio with a tier threshold; the
initial infinity compares false. -/
def optLe (b : Option ℚ) (t : ℚ) : Bool :=
  match b with
  | none => false
  | some x => decide (x ≤ t)

/-- validateTotalRelationship of number-utils.ts. -/
def validateTotalRelationship (total : ℚ) (allAmounts : List ExtractedAmount) :
    ValidationResult :=
  match subtotalCandidatesOf allAmounts with
  | [] => ⟨false, 0⟩
  | latest :: _ =>
    let st := (comboTotalsOf allAmounts).foldl (ratioStep total) (none, false)
    if optLe st.1 (1 / 50) then ⟨true, 24 / 25⟩
    else if optLe st.1 (1 / 20) then ⟨true, 9 / 10⟩
    else if optLe st.1 (1 / 10) then ⟨true, 4 / 5⟩
    else if !st.2 && decide (latest.value * (19 / 20) ≤ total) &&
        decide (total ≤ latest.value * (27 / 20)) then ⟨true, 13 / 20⟩
    else ⟨false, 0⟩

/-! ## categorizeAmount -/

/-- The payment keyword pattern, bounded by word boundaries on both
sides. -/
def paymentRE : RE :=
  RE.seq wbRE (RE.seq (ralts
    [slit "CASH", slit "CHANGE", slit "TENDERED", slit "PAID", slit "APPROVAL",
     slit "AUTH", slit "CARD", slit "VISA", slit "MASTERCARD", slit "AMEX"]) wbRE)

/-- The strong total keyword pattern of categorizeAmount. -/
def strongTotalCatRE : RE := ralts
  [RE.seq (slit "GRAND") (RE.seq wsStarRE (slit "TOTAL")),
   RE.seq (slit "TOTAL") (RE.seq wsStarRE (slit "DUE")),
   RE.seq (slit "AMOUNT") (RE.seq wsStarRE (slit "DUE")),
   RE.seq (slit "BALANCE") (RE.seq wsStarRE (slit "DUE")),
   RE.seq (slit "PLEASE") (RE.seq wsStarRE (slit "PAY")),
   RE.seq (slit "FINAL") (RE.seq (rplus (RE.cls isJsSpace)) (slit "AMOUNT")),
   RE.seq (slit "TO") (RE.seq wsStarRE (slit "PAY"))]

/-- The standalone TOTAL pattern of categorizeAmount: TOTAL preceded by
start of line (multiline) or whitespace and followed by a colon or
whitespace. -/
def totalLineRE : RE :=
  RE.seq
    (RE.alt (RE.assrt fun prev _ => prev.isNone || prev = some '\n')
      (RE.cls isJsSpace))
    (RE.seq (slit "TOTAL") (RE.cls fun c => c = ':' || isJsSpace c))

/-- The non-final total qualifier pattern of categorizeAmount. -/
def nonFinalTotalRE : RE :=
  RE.seq (ralts
    [slit "SUB", slit "ITEM", RE.seq (slit "SAVING") (ropt (slit "S")),
     slit "DISCOUNT", slit "MERCHANDISE", slit "FOOD",
     RE.seq (slit "ITEM") (ropt (slit "S"))])
    (RE.seq wsStarRE (slit "TOTAL"))

/-- The plain tax keyword pattern of categorizeAmount (no word
boundary). -/
def taxCatRE : RE := ralts [slit "TAX", slit "HST", slit "GST", slit "PST", slit "VAT"]

/-- The plain tip keyword pattern of categorizeAmount. -/
def tipCatRE : RE := ralts [slit "TIP", slit "GRATUITY", slit "SERVICE"]

/-- Order of the JS stable sort by descending value. -/
def valueRel (a b : ExtractedAmount) : Prop := b.value ≤ a.value

instance : DecidableRel valueRel := fun a b => inferInstanceAs (Decidable (b.value ≤ a.value))

instance : IsTotal ExtractedAmount valueRel :=
  ⟨fun a b => (le_total b.value a.value).imp id id⟩

instance : IsTrans ExtractedAmount valueRel :=
  ⟨fun _ _ _ hab hbc => le_trans hbc hab⟩

/-- Attach a category to a candidate, keeping its other fields. -/
def withCategory (a : ExtractedAmount) (cat : Category) : CategorizedAmount :=
  ⟨a.value, a.context, a.lineIndex, cat⟩

/-- categorizeAmount of number-utils.ts: keyword rules in strict
priority order on the uppercased context, then the relative-magnitude
fallback. -/
def categorizeAmount (amount : ExtractedAmount) (allAmounts : List ExtractedAmount) :
    CategorizedAmount :=
  let context := upperStr amount.context
  if reTest paymentRE context then withCategory amount Category.payment
  else if reTest strongTotalCatRE context then withCategory amount Category.total
  else if reTest totalLineRE context && !reTest nonFinalTotalRE context then
    withCategory amount Category.total
  else if reTest subtotalRE context then withCategory amount Category.subtotal
  else if reTest taxCatRE context then withCategory amount Category.tax
  else if reTest tipCatRE context then withCategory amount Category.tip
  else
    let maxValue := (allAmounts.map fun a => a.value).foldl max amount.value
    let sortedAmounts := List.insertionSort valueRel allAmounts
    let isLargeValue := decide (amount.value ≥ maxValue * (9 / 10))
    let isAmongLargest := (sortedAmounts.take 3).any fun a =>
      decide (|a.value - amount.value| < 1 / 100)
    if isLargeValue || isAmongLargest then withCategory amount Category.unknown
    else withCategory amount Category.item

/-! ## The scoring and selection engine (extractAmountsFromText) -/

/-- A candidate with its score and validation, as built transiently by
the selection engine. -/
structure ScoredAmount where
  value : ℚ
  context : String
  lineIndex : Nat
  score : ℚ
  validation : ValidationResult
deriving DecidableEq

/-- The final output of the extraction pipeline. -/
structure ExtractedData where
  amount : ℚ
  confidence : ℚ
  allAmounts : List ExtractedAmount
  rawText : String
deriving DecidableEq

/-- The relationship-anchor pattern: any subtotal, tax or tip keyword
anywhere in a candidate context. -/
def anchorRE : RE := ralts
  [RE.seq (slit "SUB") (RE.seq wsStarRE (slit "TOTAL")),
   slit "SUBTOTAL", slit "SUB-TOTAL",
   RE.seq (slit "BEFORE") (RE.seq wsStarRE (slit "TAX")),
   slit "TAX", slit "HST", slit "GST", slit "PST", slit "VAT",
   slit "TIP", slit "GRATUITY", slit "SERVICE"]

/-- The strong total-signal pattern of the scorer. -/
def strongSignalRE : RE :=
  RE.seq wbRE (RE.seq (ralts
    [RE.seq (slit "GRAND") (RE.seq wsStarRE (slit "TOTAL")),
     RE.seq (slit "AMOUNT") (RE.seq wsStarRE (slit "DUE")),
     RE.seq (slit "BALANCE") (RE.seq wsStarRE (slit "DUE")),
     RE.seq (slit "FINAL") (RE.seq wsStarRE (slit "AMOUNT")),
     RE.seq (slit "TOTAL") (RE.seq wsStarRE (slit "DUE")),
     RE.seq (slit "TOTAL") (RE.seq wsStarRE (slit "AMOUNT")),
     RE.seq (slit "TO") (RE.seq wsStarRE (slit "PAY"))]) wbRE)

/-- The weak total-signal pattern of the scorer. -/
def weakSignalRE : RE :=
  RE.seq wbRE (RE.seq (ralts
    [slit "TOTAL", slit "SUM", slit "AMOUNT", slit "DUE", slit "BAL"]) wbRE)

/-- The misleading total-signal pattern of the scorer. -/
def misleadingSignalRE : RE :=
  RE.seq wbRE (RE.seq (ralts
    [RE.seq (slit "ITEM") (RE.seq (ropt (slit "S")) (RE.seq wsStarRE (slit "TOTAL"))),
     RE.seq (slit "TOTAL") (RE.seq wsStarRE (RE.seq (slit "SAVING") (ropt (slit "S")))),
     RE.seq (slit "SAVING") (RE.seq (ropt (slit "S")) (RE.seq wsStarRE (slit "TOTAL"))),
     slit "DISCOUNT", slit "MERCHANDISE",
     RE.seq (slit "FOOD") (RE.seq wsStarRE (slit "TOTAL"))]) wbRE)

/-- The largest value of a nonempty list, as JS Math.max over spread
arguments; only invoked on nonempty candidate lists. -/
def listMax1 : List ℚ → ℚ
  | [] => 0
  | x :: xs => xs.foldl max x

/-- Number of lines of the raw text. -/
def numLinesOf (text : String) : Nat := (splitOnChar '\n' text.data).length

/-- Score one candidate exactly as the selection engine does: additive
keyword, category, validation, magnitude, top-three, position and
small-value contributions. -/
def scoreCandidate (lineCount : Nat) (all : List ExtractedAmount) (maxV : ℚ)
    (sortedByValue : List ExtractedAmount) (hasAnchors : Bool)
    (a : ExtractedAmount) : ScoredAmount :=
  let context := upperStr a.context
  let relPos : ℚ := if 1 < lineCount then (a.lineIndex : ℚ) / ((lineCount : ℚ) - 1) else 1
  let inTopThree := (sortedByValue.take 3).any fun b => decide (|b.value - a.value| < 1 / 100)
  let hasStrong := reTest strongSignalRE context
  let hasWeak := reTest weakSignalRE context
  let hasMisleading := reTest misleadingSignalRE context
  let hasPayment := reTest paymentRE context
  let cat := (categorizeAmount a all).category
  let validation := validateTotalRelationship a.value all
  let score : ℚ :=
    (if hasStrong then 21 / 5 else 0) +
    (if hasWeak then 9 / 5 else 0) +
    (if hasMisleading then -(11 / 5) else 0) +
    (if hasPayment || cat = Category.payment then -(14 / 5) else 0) +
    (if cat = Category.total then 7 / 5 else 0) +
    (if cat = Category.subtotal then 2 / 5 else 0) +
    (if cat = Category.tax || cat = Category.tip then -(4 / 5) else 0) +
    (if cat = Category.item then -(2 / 5) else 0) +
    (if validation.valid then (12 / 5) * validation.confidence
     else if hasAnchors then -(3 / 5) else 0) +
    min (6 / 5) (a.value / maxV) +
    (if inTopThree then 1 / 2 else 0) +
    relPos * (8 / 5) +
    (if a.value < 1 then -1 else 0)
  ⟨a.value, a.context, a.lineIndex, score, validation⟩

/-- All candidates of a text with their scores, in discovery order. -/
def scoredOf (text : String) : List ScoredAmount :=
  let all := findAmountsInText text
  let maxV := listMax1 (all.map fun a => a.value)
  let sortedByValue := List.insertionSort valueRel all
  let hasAnchors := all.any fun a => reTest anchorRE (upperStr a.context)
  all.map (scoreCandidate (numLinesOf text) all maxV sortedByValue hasAnchors)

/-- Order of the JS stable sort by descending score, ties broken by
descending line index. -/
def scoreRel (a b : ScoredAmount) : Prop :=
  b.score < a.score ∨ (b.score = a.score ∧ b.lineIndex ≤ a.lineIndex)

instance : DecidableRel scoreRel := fun a b =>
  inferInstanceAs (Decidable (b.score < a.score ∨ (b.score = a.score ∧ b.lineIndex ≤ a.lineIndex)))

instance : IsTotal ScoredAmount scoreRel := by
  constructor
  intro a b
  rcases lt_trichotomy b.score a.score with h | h | h
  · exact Or.inl (Or.inl h)
  · rcases Nat.le_total b.lineIndex a.lineIndex with h2 | h2
    · exact Or.inl (Or.inr ⟨h, h2⟩)
    · exact Or.inr (Or.inr ⟨h.symm, h2⟩)
  · exact Or.inr (Or.inl h)

instance : IsTrans ScoredAmount scoreRel := by
  constructor
  intro a b c hab hbc
  rcases hab with h1 | ⟨h1, h1i⟩
  · rcases hbc with h2 | ⟨h2, h2i⟩
    · exact Or.inl (lt_trans h2 h1)
    · exact Or.inl (h2 ▸ h1)
  · rcases hbc with h2 | ⟨h2, h2i⟩
    · exact Or.inl (h1 ▸ h2)
    · exact Or.inr ⟨h1 ▸ h2, Nat.le_trans h2i h1i⟩

/-- The scored candidates ranked best first. -/
def rankedOf (text : String) : List ScoredAmount := List.insertionSort scoreRel (scoredOf text)

/-- The rejection-branch confidence: how close the best rejected
candidate came, clamped into the 0.1 to 0.35 band, or 0 with no
candidates at all. -/
def rejectionConfidence (text : String) : ℚ :=
  match rankedOf text with
  | [] => 0
  | best :: _ => max (1 / 10) (min (7 / 20) (best.score / 4))

/-- extractAmountsFromText of receipt-ocr.ts, identical to the
extractAmounts callback of receipt-scanner.tsx: find candidates, score
them, rank them, apply the 1.2 acceptance threshold, then derive the
confidence from the best score, the margin over the runner-up and a
validation bonus. -/
def extractAmountsFromText (text : String) : ExtractedData :=
  let all := findAmountsInText text
  match all with
  | [] => ⟨0, 0, [], text⟩
  | _ :: _ =>
    match rankedOf text with
    | [] => ⟨0, 0, all, text⟩
    | best :: rest =>
      if best.score < 6 / 5 then
        ⟨0, max (1 / 10) (min (7 / 20) (best.score / 4)), all, text⟩
      else
        let scoreMargin := match rest with
          | [] => best.score
          | second :: _ => best.score - second.score
        let baseConfidence := min (49 / 50) (max (1 / 5) (best.score / 8))
        let marginFactor := min 1 (max (9 / 20) (scoreMargin / 3))
        let conf0 := baseConfidence * marginFactor
        let conf := if best.validation.valid then min (49 / 50) (conf0 + 1 / 10) else conf0
        ⟨best.value, conf, all, text⟩

/-! ## Progress reporting of the multi-pass scan in receipt-scanner.tsx -/

/-- One update of the progress state in receipt-scanner.tsx: either the
Tesseract logger forwarding a rounded percentage (guarded only by the
request-identity check), or one of the inter-pass floors that raise
progress to at least 50 or 75 before a retry pass. -/
inductive ProgressEvent where
  | ocrReport : Bool → Nat → ProgressEvent
  | interPassFloor : Nat → ProgressEvent
deriving DecidableEq

/-- Apply one progress event to the displayed progress value, as the
setProgress calls of tryOCR and processImage do. -/
def applyProgressEvent (p : Nat) : ProgressEvent → Nat
  | ProgressEvent.ocrReport isCurrentRequest v => if isCurrentRequest then v else p
  | ProgressEvent.interPassFloor t => max p t

/-- The successive displayed progress values of a scan session,
starting from the given initial value. -/
def progressStates (p : Nat) : List ProgressEvent → List Nat
  | [] => [p]
  | e :: es => p :: progressStates (applyProgressEvent p e) es

/-- The event sequence of one processImage session: the normal pass's
logger reports, then, when a retry is triggered, the floor to 50 and
the high-contrast pass's reports, then, when a second retry is
triggered, the floor to 75 and the low-contrast pass's reports. -/
def sessionEvents (pass1 pass2 pass3 : List Nat) (retryHigh retryLow : Bool) :
    List ProgressEvent :=
  pass1.map (ProgressEvent.ocrReport true) ++
    (if retryHigh then
      ProgressEvent.interPassFloor 50 :: pass2.map (ProgressEvent.ocrReport true)
     else []) ++
    (if retryLow then
      ProgressEvent.interPassFloor 75 :: pass3.map (ProgressEvent.ocrReport true)
     else [])

/-- Is a progress trace monotone, never decreasing? -/
def nonDecreasingB : List Nat → Bool
  | [] => true
  | [_] => true
  | a :: b :: rest => decide (a ≤ b) && nonDecreasingB (b :: rest)

attribute [local semireducible] Rat.add Rat.mul Rat.inv Rat.sub Rat.ofScientific

/-! ## Spec-side definitions used to state the claims -/

/-- Largest element of a list of rationals, none when empty. -/
def listMaxQ? : List ℚ → Option ℚ
  | [] => none
  | x :: xs => some (xs.foldl max x)

/-- Smallest element of a list of rationals, none when empty. -/
def listMinQ? : List ℚ → Option ℚ
  | [] => none
  | x :: xs => some (xs.foldl min x)

/-- The best (largest) candidate score of a text, none without
candidates. -/
def bestScoreOf (text : String) : Option ℚ :=
  listMaxQ? ((scoredOf text).map fun s => s.score)

/-- The relative errors of the positive expected totals in a combo
list against a proposed total. -/
def ratiosOfList (total : ℚ) (L : List ℚ) : List ℚ :=
  L.filterMap fun e => if 0 < e then some (|total - e| / e) else none

/-- Every subtotal-keyword candidate, with no recency cut (the reading
of the claim that quantifies over all combinations). -/
def claimSubtotalsOf (all : List ExtractedAmount) : List ExtractedAmount :=
  all.filter fun a => reTest subtotalRE (upperStr a.context)

/-- Every tax-keyword candidate, with no recency cut. -/
def claimTaxesOf (all : List ExtractedAmount) : List ExtractedAmount :=
  all.filter fun a => reTest taxWbRE (upperStr a.context)

/-- Every tip-keyword candidate, with no recency cut. -/
def claimTipsOf (all : List ExtractedAmount) : List ExtractedAmount :=
  all.filter fun a => reTest tipWbRE (upperStr a.context)

/-- Expected totals over all subtotal and tax-or-zero and tip-or-zero
combinations, as the claim words them, with no recency cut. -/
def claimComboTotalsOf (all : List ExtractedAmount) : List ℚ :=
  (claimSubtotalsOf all).flatMap fun s =>
    (0 :: (claimTaxesOf all).map fun c => c.value).flatMap fun tx =>
      (0 :: (claimTipsOf all).map fun c => c.value).map fun tp => s.value + tx + tp

/-- The validator as the claim states it: bestRatio minimised over all
subtotal and tax-or-zero and tip-or-zero combinations, then the 0.96,
0.90, 0.80 tiers and the 0.65 band fallback against the latest
subtotal. -/
def claimValidate (total : ℚ) (all : List ExtractedAmount) : ValidationResult :=
  match List.insertionSort lineIdxRel (claimSubtotalsOf all) with
  | [] => ⟨false, 0⟩
  | latest :: _ =>
    let rs := ratiosOfList total (claimComboTotalsOf all)
    if optLe (listMinQ? rs) (1 / 50) then ⟨true, 24 / 25⟩
    else if optLe (listMinQ? rs) (1 / 20) then ⟨true, 9 / 10⟩
    else if optLe (listMinQ? rs) (1 / 10) then ⟨true, 4 / 5⟩
    else if !(rs.any fun r => decide (r ≤ 1 / 50)) &&
        decide (latest.value * (19 / 20) ≤ total) &&
        decide (total ≤ latest.value * (27 / 20)) then ⟨true, 13 / 20⟩
    else ⟨false, 0⟩

/-- The validator as the amended claim states it: the same tier
structure, with bestRatio the minimum relative error over combinations
drawn from the up-to-5 most recent candidates per class and with
non-positive expected totals skipped. -/
def specAmendedValidate (total : ℚ) (all : List ExtractedAmount) : ValidationResult :=
  match subtotalCandidatesOf all with
  | [] => ⟨false, 0⟩
  | latest :: _ =>
    let rs := ratiosOfList total (comboTotalsOf all)
    if optLe (listMinQ? rs) (1 / 50) then ⟨true, 24 / 25⟩
    else if optLe (listMinQ? rs) (1 / 20) then ⟨true, 9 / 10⟩
    else if optLe (listMinQ? rs) (1 / 10) then ⟨true, 4 / 5⟩
    else if !(rs.any fun r => decide (r ≤ 1 / 50)) &&
        decide (latest.value * (19 / 20) ≤ total) &&
        decide (total ≤ latest.value * (27 / 20)) then ⟨true, 13 / 20⟩
    else ⟨false, 0⟩

/-- Does a token lean European under the format detector's rules: both
separators with the comma last, a lone comma with a short trailing
group, or a lone dot with a long trailing group? -/
def euLeaningTok (raw : List Char) : Bool :=
  let m := stripSpacesApos raw
  if m.contains ',' && m.contains '.' then
    decide (lastIndexOfChar ',' m > lastIndexOfChar '.' m)
  else if m.contains ',' && !m.contains '.' then
    decide (((splitOnChar ',' m).getLastD []).length ≤ 2)
  else if !m.contains ',' && m.contains '.' then
    !decide (((splitOnChar '.' m).getLastD []).length ≤ 2)
  else false

/-- Does a token lean US under the format detector's rules (the mirror
cases; a separator-free token leans neither way)? -/
def usLeaningTok (raw : List Char) : Bool :=
  let m := stripSpacesApos raw
  if m.contains ',' && m.contains '.' then
    !decide (lastIndexOfChar ',' m > lastIndexOfChar '.' m)
  else if m.contains ',' && !m.contains '.' then
    !decide (((splitOnChar ',' m).getLastD []).length ≤ 2)
  else if !m.contains ',' && m.contains '.' then
    decide (((splitOnChar '.' m).getLastD []).length ≤ 2)
  else false

/-- The format detector as the claim states it: us with fewer than 3
tokens, otherwise european exactly when the european tally beats 1.5
times the us tally, us exactly in the mirror case, mixed otherwise. -/
def specDetect (text : String) : NumberFormat :=
  let toks := detectTokensOf text
  if toks.length < 3 then NumberFormat.us
  else
    let eu := (toks.filter euLeaningTok).length
    let us := (toks.filter usLeaningTok).length
    if (eu : ℚ) > (us : ℚ) * (3 / 2) then NumberFormat.european
    else if (us : ℚ) > (eu : ℚ) * (3 / 2) then NumberFormat.us
    else NumberFormat.mixed

/-- A digit-group list joined by one separator character, the shape of
the inputs the multi-separator claim quantifies over. -/
def mkSepList (sep : Char) (gs : List (List Char)) : List Char :=
  match gs with
  | [] => []
  | g :: rest => g ++ rest.flatMap fun h => sep :: h

/-- The concrete receipt text of the end-to-end claim. -/
def c1ReceiptText : String :=
  "SUBTOTAL 45.00\nTAX 4.50\nTIP 2.00\nTOTAL 51.50\nCASH 60.00\nCHANGE 8.50"

/-- The candidate list of the validator claim's concrete example. -/
def c4TestAmounts : List ExtractedAmount :=
  [⟨45, "SUBTOTAL 45.00", 3⟩, ⟨9 / 2, "TAX 4.50", 4⟩,
   ⟨2, "TIP 2.00", 5⟩, ⟨103 / 2, "TOTAL 51.50", 6⟩]

/-- Six subtotal candidates: the five most recent share value 10 while
the oldest has value 50, separating the recency-cut code from the
all-combinations reading of the claim. -/
def c4ManySubtotals : List ExtractedAmount :=
  [⟨50, "SUBTOTAL 50.00", 0⟩, ⟨10, "SUBTOTAL 10.00", 1⟩, ⟨10, "SUBTOTAL 10.00", 2⟩,
   ⟨10, "SUBTOTAL 10.00", 3⟩, ⟨10, "SUBTOTAL 10.00", 4⟩, ⟨10, "SUBTOTAL 10.00", 5⟩]

/-- The malformed two-comma token of the parser claims. -/
def twoCommaToken : String := "1,234,56"

/-- The apostrophe-grouped token of the parser claims. -/
def aposToken : String := String.mk ['1', apos, '2', '3', '4', '.', '5', '6']

/-! ## Helper lemmas -/

theorem updBest_some (x r : ℚ) : updBest (some x) r = some (min x r) := by
  unfold updBest
  by_cases h : r < x
  · simp [h, min_eq_right (le_of_lt h)]
  · simp [h, min_eq_left (not_lt.mp h)]

theorem foldl_updBest_some (L : List ℚ) : ∀ x : ℚ, L.foldl updBest (some x) = some (L.foldl min x) := by
  induction L with
  | nil => intro x; rfl
  | cons r L ih => intro x; simp only [List.foldl_cons, updBest_some, ih]

theorem foldl_updBest_none (L : List ℚ) : L.foldl updBest none = listMinQ? L := by
  cases L with
  | nil => rfl
  | cons r L => simp only [List.foldl_cons, listMinQ?, updBest, foldl_updBest_some]

theorem foldl_ratioStep (total : ℚ) (L : List ℚ) :
    ∀ (b : Option ℚ) (fl : Bool),
      L.foldl (ratioStep total) (b, fl) =
        ((ratiosOfList total L).foldl updBest b,
          fl || (ratiosOfList total L).any fun r => decide (r ≤ 1 / 50)) := by
  induction L with
  | nil => intro b fl; simp [ratiosOfList]
  | cons e L ih =>
    intro b fl
    by_cases he : e ≤ 0
    · have h0 : ¬(0 < e) := not_lt.mpr he
      simp only [List.foldl_cons, ratioStep, he, if_true, ratiosOfList, List.filterMap_cons,
        h0, if_false, ih]
    · have h0 : 0 < e := lt_of_not_le he
      simp only [List.foldl_cons, ratioStep, he, if_false, ratiosOfList, List.filterMap_cons,
        h0, if_true, ih]
      simp [ratiosOfList, Bool.or_assoc]

theorem validate_eq_specAmended (total : ℚ) (all : List ExtractedAmount) :
    validateTotalRelationship total all = specAmendedValidate total all := by
  unfold validateTotalRelationship specAmendedValidate
  cases h : subtotalCandidatesOf all with
  | nil => rfl
  | cons latest rest =>
    simp only [foldl_ratioStep, foldl_updBest_none, Bool.false_or]

theorem le_foldl_max (L : List ℚ) : ∀ a b : ℚ, a ≤ b → a ≤ L.foldl max b := by
  induction L with
  | nil => intro a b h; simpa using h
  | cons x L ih => intro a b h; exact ih a (max b x) (le_trans h (le_max_left b x))

theorem mem_le_foldl_max (L : List ℚ) : ∀ b y : ℚ, y ∈ L → y ≤ L.foldl max b := by
  induction L with
  | nil => intro b y hy; cases hy
  | cons x L ih =>
    intro b y hy
    rcases List.mem_cons.mp hy with h | h
    · subst h; exact le_foldl_max L y (max b y) (le_max_right b y)
    · exact ih (max b x) y h

theorem foldl_max_le (L : List ℚ) : ∀ b x : ℚ, b ≤ x → (∀ y ∈ L, y ≤ x) → L.foldl max b ≤ x := by
  induction L with
  | nil => intro b x h _; simpa using h
  | cons z L ih =>
    intro b x hb hall
    exact ih (max b z) x (max_le hb (hall z (List.mem_cons_self z L)))
      fun y hy => hall y (List.mem_cons_of_mem z hy)

theorem listMaxQ?_eq_of (L : List ℚ) (x : ℚ) (hx : x ∈ L) (hall : ∀ y ∈ L, y ≤ x) :
    listMaxQ? L = some x := by
  cases L with
  | nil => cases hx
  | cons a as =>
    unfold listMaxQ?
    refine congrArg some (le_antisymm ?_ ?_)
    · exact foldl_max_le as a x (hall a (List.mem_cons_self a as))
        fun y hy => hall y (List.mem_cons_of_mem a hy)
    · rcases List.mem_cons.mp hx with h | h
      · subst h; exact le_foldl_max as x x le_rfl
      · exact mem_le_foldl_max as a x h

theorem amountOfToken_valid (formatHint : NumberFormat) (lineText : String) (idx : Nat)
    (tok : List Char) (a : ExtractedAmount)
    (h : amountOfToken formatHint lineText idx tok = some a) :
    isValidReceiptAmount a.value = true := by
  rcases hp : parseCurrencyString (String.mk tok) formatHint with _ | v
  · simp only [amountOfToken, hp] at h
    exact Option.noConfusion h
  · simp only [amountOfToken, hp] at h
    split_ifs at h with hv
    · cases h; exact hv

theorem findAmountsInText_valid (text : String) (a : ExtractedAmount)
    (ha : a ∈ findAmountsInText text) : isValidReceiptAmount a.value = true := by
  unfold findAmountsInText at ha
  simp only [List.mem_flatMap, List.mem_filterMap] at ha
  obtain ⟨p, _, tok, _, htok⟩ := ha
  exact amountOfToken_valid _ _ _ _ _ htok

theorem scoredOf_eq_nil_iff (text : String) :
    scoredOf text = [] ↔ findAmountsInText text = [] := by
  unfold scoredOf
  simp

theorem rankedOf_eq_nil_iff (text : String) :
    rankedOf text = [] ↔ findAmountsInText text = [] := by
  rw [← scoredOf_eq_nil_iff]
  unfold rankedOf
  constructor
  · intro h
    have hp := List.perm_insertionSort scoreRel (scoredOf text)
    rw [h] at hp
    exact hp.nil_eq.symm
  · intro h; rw [h]; rfl

theorem rankedOf_head_score (text : String) (best : ScoredAmount) (rest : List ScoredAmount)
    (h : rankedOf text = best :: rest) : bestScoreOf text = some best.score := by
  have hsorted : List.Sorted scoreRel (rankedOf text) :=
    List.sorted_insertionSort scoreRel (scoredOf text)
  have hperm : (rankedOf text).Perm (scoredOf text) :=
    List.perm_insertionSort scoreRel (scoredOf text)
  unfold bestScoreOf
  apply listMaxQ?_eq_of
  · exact List.mem_map_of_mem _ (hperm.mem_iff.mp (h ▸ List.mem_cons_self best rest))
  · intro y hy
    obtain ⟨s, hs, rfl⟩ := List.mem_map.mp hy
    have hsr : s ∈ rankedOf text := hperm.mem_iff.mpr hs
    rw [h] at hsr
    rcases List.mem_cons.mp hsr with h1 | h1
    · subst h1; exact le_rfl
    · have hrel := (List.pairwise_cons.mp (h ▸ hsorted)).1 s h1
      rcases hrel with hlt | ⟨heq, _⟩
      · exact le_of_lt hlt
      · exact le_of_eq heq

theorem scoredOf_value_pos (text : String) (s : ScoredAmount) (hs : s ∈ scoredOf text) :
    0 < s.value := by
  unfold scoredOf at hs
  simp only [List.mem_map] at hs
  obtain ⟨a, ha, rfl⟩ := hs
  have hv := findAmountsInText_valid text a ha
  unfold isValidReceiptAmount at hv
  simp only [Bool.and_eq_true, decide_eq_true_eq] at hv
  exact hv.1

theorem rankedOf_value_pos (text : String) (s : ScoredAmount) (hs : s ∈ rankedOf text) :
    0 < s.value :=
  scoredOf_value_pos text s ((List.perm_insertionSort scoreRel (scoredOf text)).mem_iff.mp hs)

theorem detectStep_spec (t : List Char) (e u : Nat) :
    detectStep (e, u) t =
      (e + (if euLeaningTok t then 1 else 0), u + (if usLeaningTok t then 1 else 0)) := by
  simp only [detectStep, euLeaningTok, usLeaningTok]
  split_ifs <;> simp_all <;> omega

theorem foldl_detectStep (L : List (List Char)) :
    ∀ e u : Nat,
      L.foldl detectStep (e, u) =
        (e + (L.filter euLeaningTok).length, u + (L.filter usLeaningTok).length) := by
  induction L with
  | nil => intro e u; simp
  | cons t L ih =>
    intro e u
    rw [List.foldl_cons, detectStep_spec, ih]
    rcases he : euLeaningTok t <;> rcases hu : usLeaningTok t <;>
      simp [List.filter_cons, he, hu] <;> omega

/-! ## Symbolic facts about the parser's cleaning and splitting -/

/-- A character that is a digit, a separator or a minus sign: the
alphabet of the inputs the parser claims quantify over. -/
def plainChar (c : Char) : Prop :=
  isDigitChar c = true ∨ c = ',' ∨ c = '.' ∨ c = '-'

theorem digit_toNat (c : Char) (h : isDigitChar c = true) :
    48 ≤ c.toNat ∧ c.toNat ≤ 57 := by
  simpa [isDigitChar] using h

theorem digit_not_space (c : Char) (h : isDigitChar c = true) : isJsSpace c = false := by
  have hn := digit_toNat c h
  simp only [isJsSpace, Bool.or_eq_false_iff, Bool.and_eq_false_iff,
    decide_eq_false_iff_not]
  omega

theorem digit_ne_of_toNat (c : Char) (d : Char) (h : isDigitChar c = true)
    (hd : d.toNat < 48 ∨ 57 < d.toNat) : c ≠ d := by
  intro heq
  have hn := digit_toNat c h
  rw [heq] at hn
  omega

theorem plain_not_space (c : Char) (h : plainChar c) : isJsSpace c = false := by
  rcases h with h | h | h | h
  · exact digit_not_space c h
  all_goals subst h; decide

theorem plain_ne_apos (c : Char) (h : plainChar c) : c ≠ apos := by
  rcases h with h | h | h | h
  · exact digit_ne_of_toNat c apos h (by decide)
  all_goals subst h; decide

theorem plain_ne_curly (c : Char) (h : plainChar c) : c ≠ curlyApos := by
  rcases h with h | h | h | h
  · exact digit_ne_of_toNat c curlyApos h (by decide)
  all_goals subst h; decide

theorem plain_ne_nbsp (c : Char) (h : plainChar c) : c ≠ nbsp ∧ c ≠ narrowNbsp := by
  rcases h with h | h | h | h
  · exact ⟨digit_ne_of_toNat c nbsp h (by decide),
      digit_ne_of_toNat c narrowNbsp h (by decide)⟩
  all_goals subst h; exact ⟨by decide, by decide⟩

theorem plain_keep (c : Char) (h : plainChar c) :
    (isDigitChar c || c = '.' || c = ',' || c = apos || c = curlyApos ||
      isJsSpace c || c = '-') = true := by
  rcases h with h | h | h | h
  · simp [h]
  all_goals subst h; simp

theorem map_id_of {α : Type} (l : List α) (f : α → α) (h : ∀ c ∈ l, f c = c) :
    l.map f = l := by
  induction l with
  | nil => rfl
  | cons c t ih =>
    rw [List.map_cons, h c (List.mem_cons_self c t),
      ih fun d hd => h d (List.mem_cons_of_mem c hd)]

theorem dropWhile_eq_self_of (l : List Char) (h : ∀ c ∈ l, isJsSpace c = false) :
    l.dropWhile isJsSpace = l := by
  cases l with
  | nil => rfl
  | cons c t =>
    rw [List.dropWhile_cons, h c (List.mem_cons_self c t)]
    simp

theorem trimWs_eq_self (l : List Char) (h : ∀ c ∈ l, isJsSpace c = false) :
    trimWs l = l := by
  unfold trimWs
  rw [dropWhile_eq_self_of l h,
    dropWhile_eq_self_of l.reverse fun c hc => h c (List.mem_reverse.mp hc),
    List.reverse_reverse]

theorem cleanedOf_plain (l : List Char) (h : ∀ c ∈ l, plainChar c) :
    cleanedOf (String.mk l) = l := by
  unfold cleanedOf
  have h0 : (String.mk l).data = l := rfl
  rw [h0]
  rw [List.filter_eq_self.mpr fun c hc => plain_keep c (h c hc)]
  rw [map_id_of l _ fun c hc => by
    have hne := plain_ne_nbsp c (h c hc)
    simp [hne.1, hne.2]]
  rw [map_id_of l _ fun c hc => by simp [plain_ne_curly c (h c hc)]]
  exact trimWs_eq_self l fun c hc => plain_not_space c (h c hc)

theorem normalizedOf_plain (c0 : Char) (rest : List Char)
    (h : ∀ c ∈ c0 :: rest, plainChar c) (hrest : ∀ c ∈ rest, c ≠ '-') :
    normalizedOf (String.mk (c0 :: rest)) = c0 :: rest := by
  unfold normalizedOf
  rw [cleanedOf_plain _ h]
  have h1 : (c0 :: rest).filter (fun c => !isJsSpace c) = c0 :: rest :=
    List.filter_eq_self.mpr fun c hc => by simp [plain_not_space c (h c hc)]
  rw [h1]
  have h2 : (c0 :: rest).filter (fun c => decide (c ≠ apos)) = c0 :: rest :=
    List.filter_eq_self.mpr fun c hc => by simp [plain_ne_apos c (h c hc)]
  rw [h2]
  show c0 :: rest.filter (fun d => decide (d ≠ '-')) = c0 :: rest
  have h3 : rest.filter (fun d => decide (d ≠ '-')) = rest :=
    List.filter_eq_self.mpr fun c hc => by simp [hrest c hc]
  rw [h3]

theorem contains_eq_false_of (l : List Char) (a : Char) (h : ∀ c ∈ l, c ≠ a) :
    l.contains a = false := by
  induction l with
  | nil => rfl
  | cons c t ih =>
    simp only [List.contains_cons, Bool.or_eq_false_iff]
    constructor
    · simpa using (h c (List.mem_cons_self c t)).symm
    · exact ih fun d hd => h d (List.mem_cons_of_mem c hd)

theorem contains_eq_true_of (l : List Char) (a : Char) (h : a ∈ l) :
    l.contains a = true := by
  induction l with
  | nil => cases h
  | cons c t ih =>
    simp only [List.contains_cons, Bool.or_eq_true]
    rcases List.mem_cons.mp h with h1 | h1
    · exact Or.inl (by simp [h1])
    · exact Or.inr (ih h1)

theorem splitOnChar_ne_nil (sep : Char) (l : List Char) : splitOnChar sep l ≠ [] := by
  cases l with
  | nil => simp [splitOnChar]
  | cons c t =>
    unfold splitOnChar
    by_cases h : c = sep
    · simp [h]
    · simp only [h, if_false]
      cases splitOnChar sep t <;> simp

theorem splitOnChar_cons_ne (sep c : Char) (t : List Char) (h : c ≠ sep) :
    splitOnChar sep (c :: t) =
      (c :: (splitOnChar sep t).headD []) :: (splitOnChar sep t).tail := by
  rcases hsp : splitOnChar sep t with _ | ⟨g, gs⟩
  · exact absurd hsp (splitOnChar_ne_nil sep t)
  · simp only [splitOnChar, if_neg h, hsp]
    rfl

theorem splitOnChar_not_mem (sep : Char) (g : List Char) (h : ∀ c ∈ g, c ≠ sep) :
    splitOnChar sep g = [g] := by
  induction g with
  | nil => rfl
  | cons c t ih =>
    rw [splitOnChar_cons_ne sep c t (h c (List.mem_cons_self c t)),
      ih fun d hd => h d (List.mem_cons_of_mem c hd)]
    rfl

theorem splitOnChar_append (sep : Char) (g l : List Char) (h : ∀ c ∈ g, c ≠ sep) :
    splitOnChar sep (g ++ l) =
      (g ++ (splitOnChar sep l).headD []) :: (splitOnChar sep l).tail := by
  induction g with
  | nil =>
    simp only [List.nil_append]
    rcases hsp : splitOnChar sep l with _ | ⟨x, xs⟩
    · exact absurd hsp (splitOnChar_ne_nil sep l)
    · rfl
  | cons c t ih =>
    rw [List.cons_append, splitOnChar_cons_ne sep c (t ++ l) (h c (List.mem_cons_self c t)),
      ih fun d hd => h d (List.mem_cons_of_mem c hd)]
    rfl

theorem mkSepList_cons₂ (sep : Char) (g h : List Char) (t : List (List Char)) :
    mkSepList sep (g :: h :: t) = g ++ sep :: mkSepList sep (h :: t) := by
  simp [mkSepList, List.flatMap_cons]

theorem mkSepList_single (sep : Char) (g : List Char) : mkSepList sep [g] = g := by
  simp [mkSepList]

theorem split_mkSepList (sep : Char) (gs : List (List Char)) (hne : gs ≠ [])
    (h : ∀ g ∈ gs, ∀ c ∈ g, c ≠ sep) :
    splitOnChar sep (mkSepList sep gs) = gs := by
  induction gs with
  | nil => exact absurd rfl hne
  | cons g rest ih =>
    cases rest with
    | nil =>
      rw [mkSepList_single]
      exact splitOnChar_not_mem sep g (h g (List.mem_cons_self g []))
    | cons h2 t2 =>
      rw [mkSepList_cons₂,
        splitOnChar_append sep g _ (h g (List.mem_cons_self g (h2 :: t2)))]
      have hstep : splitOnChar sep (sep :: mkSepList sep (h2 :: t2)) =
          [] :: splitOnChar sep (mkSepList sep (h2 :: t2)) := by
        simp only [splitOnChar]
        simp
      rw [hstep, ih (List.cons_ne_nil h2 t2)
        fun g2 hg2 c hc => h g2 (List.mem_cons_of_mem g hg2) c hc]
      simp

theorem mkSepList_mem (sep : Char) (gs : List (List Char)) (c : Char)
    (hc : c ∈ mkSepList sep gs) : c = sep ∨ ∃ g ∈ gs, c ∈ g := by
  unfold mkSepList at hc
  cases gs with
  | nil => cases hc
  | cons g rest =>
    rcases List.mem_append.mp hc with h1 | h1
    · exact Or.inr ⟨g, List.mem_cons_self g rest, h1⟩
    · obtain ⟨h2, hh2, hc2⟩ := List.mem_flatMap.mp h1
      rcases List.mem_cons.mp hc2 with h3 | h3
      · exact Or.inl h3
      · exact Or.inr ⟨h2, List.mem_cons_of_mem g hh2, h3⟩

theorem filter_mkSepList (sep : Char) (hsep : sep = ',' ∨ sep = '.')
    (gs : List (List Char)) (h : ∀ g ∈ gs, ∀ c ∈ g, isDigitChar c = true) :
    (mkSepList sep gs).filter (fun c => !(c = '.' || c = ',')) = gs.flatten := by
  induction gs with
  | nil => rfl
  | cons g rest ih =>
    cases rest with
    | nil =>
      rw [mkSepList_single]
      simp only [List.flatten_cons, List.flatten_nil, List.append_nil]
      exact List.filter_eq_self.mpr fun c hc => by
        have hd := h g (List.mem_cons_self g []) c hc
        simp [digit_ne_of_toNat c '.' hd (by decide),
          digit_ne_of_toNat c ',' hd (by decide)]
    | cons h2 t2 =>
      rw [mkSepList_cons₂, List.filter_append, List.filter_cons]
      have hsepfalse : (!((sep = '.') || (sep = ','))) = false := by
        rcases hsep with h1 | h1 <;> subst h1 <;> decide
      rw [if_neg (by simp [hsepfalse])]
      rw [List.filter_eq_self.mpr fun c hc => by
        have hd := h g (List.mem_cons_self g (h2 :: t2)) c hc
        simp [digit_ne_of_toNat c '.' hd (by decide),
          digit_ne_of_toNat c ',' hd (by decide)]]
      rw [ih fun g2 hg2 c hc => h g2 (List.mem_cons_of_mem g hg2) c hc]
      simp [List.flatten_cons]

theorem chooseSep_none_of_no_seps (l : List Char) (hint : NumberFormat)
    (h1 : l.contains ',' = false) (h2 : l.contains '.' = false) :
    chooseDecimalSeparator l hint = none := by
  have m1 : ',' ∉ l := by simpa using h1
  have m2 : '.' ∉ l := by simpa using h2
  simp [chooseDecimalSeparator, h1, h2, m1, m2]

theorem chooseSep_some_cases (l : List Char) (hint : NumberFormat) (sep : Char)
    (h : chooseDecimalSeparator l hint = some sep) : sep = ',' ∨ sep = '.' := by
  unfold chooseDecimalSeparator at h
  rcases hc : l.contains ',' <;> rcases hd : l.contains '.' <;>
    simp only [hc, hd, Bool.true_and, Bool.false_and, Bool.and_false, Bool.and_true,
      if_true, if_false, Bool.false_eq_true, if_neg, ite_true, ite_false] at h
  · exact Option.noConfusion h
  · split_ifs at h <;> first
      | (cases h; exact Or.inr rfl)
      | exact Option.noConfusion h
  · split_ifs at h <;> first
      | (cases h; exact Or.inl rfl)
      | exact Option.noConfusion h
  · split_ifs at h <;> (cases h; first | exact Or.inl rfl | exact Or.inr rfl)

theorem chooseSep_none_multi (sep : Char) (l : List Char) (hint : NumberFormat)
    (parts : List (List Char))
    (hsep : sep = ',' ∨ sep = '.')
    (hcsep : l.contains sep = true)
    (hcother : ∀ c ∈ l, c = sep ∨ isDigitChar c = true)
    (hsplit : splitOnChar sep l = parts)
    (hlast : 3 ≤ (parts.getLastD []).length)
    (hplen : 3 ≤ parts.length) :
    chooseDecimalSeparator l hint = none := by
  have hother : ∀ other : Char, other ≠ sep → (other = ',' ∨ other = '.') →
      l.contains other = false := by
    intro other hne ho
    apply contains_eq_false_of l other
    intro c hc
    rcases hcother c hc with rfl | hdig
    · exact fun he => hne he.symm
    · rcases ho with rfl | rfl
      · exact digit_ne_of_toNat c ',' hdig (by decide)
      · exact digit_ne_of_toNat c '.' hdig (by decide)
  have hns : ¬(parts.getLastD []).length ≤ 2 := by omega
  have hn2 : ¬parts.length = 2 := by omega
  have hlast2 : 3 ≤ (parts.getLast?.getD []).length := by
    rwa [List.getLastD_eq_getLast?] at hlast
  rcases hsep with rfl | rfl
  · have h2 : l.contains '.' = false := hother '.' (by decide) (Or.inr rfl)
    simp only [chooseDecimalSeparator, hcsep, h2, Bool.true_and, Bool.and_false,
      Bool.false_eq_true, if_false, if_true, ite_true, ite_false]
    simp only [hsplit]
    by_cases h3 : (parts.getLastD []).length = 3 <;> simp [hns, hn2, h3] <;> omega
  · have h2 : l.contains ',' = false := hother ',' (by decide) (Or.inl rfl)
    simp only [chooseDecimalSeparator, hcsep, h2, Bool.true_and, Bool.false_and,
      Bool.and_false, Bool.false_eq_true, if_false, if_true, ite_true, ite_false]
    simp only [hsplit]
    by_cases h3 : (parts.getLastD []).length = 3 <;> simp [hns, hn2, h3] <;> omega

theorem parse_multiSep_thousands (sep : Char) (gs : List (List Char)) (hint : NumberFormat)
    (hsep : sep = ',' ∨ sep = '.')
    (hlen : 3 ≤ gs.length)
    (hgs : ∀ g ∈ gs, g ≠ [] ∧ ∀ c ∈ g, isDigitChar c = true)
    (hlast : 3 ≤ (gs.getLastD []).length) :
    parseCurrencyString (String.mk (mkSepList sep gs)) hint =
      some ((digitsToNat gs.flatten : ℕ) : ℚ) := by
  obtain ⟨g0, gs', rfl⟩ : ∃ g0 gs', gs = g0 :: gs' := by
    cases gs with
    | nil => simp at hlen
    | cons a b => exact ⟨a, b, rfl⟩
  obtain ⟨g1, gs'', rfl⟩ : ∃ g1 gs'', gs' = g1 :: gs'' := by
    cases gs' with
    | nil => simp at hlen
    | cons a b => exact ⟨a, b, rfl⟩
  obtain ⟨d0, g0', rfl⟩ : ∃ d g0', g0 = d :: g0' := by
    cases g0 with
    | nil => exact absurd rfl (hgs [] (List.mem_cons_self _ _)).1
    | cons a b => exact ⟨a, b, rfl⟩
  have hd0 : isDigitChar d0 = true :=
    (hgs (d0 :: g0') (List.mem_cons_self _ _)).2 d0 (List.mem_cons_self d0 g0')
  have hsepPlain : plainChar sep := by
    rcases hsep with rfl | rfl
    · exact Or.inr (Or.inl rfl)
    · exact Or.inr (Or.inr (Or.inl rfl))
  have hmem : ∀ c ∈ mkSepList sep ((d0 :: g0') :: g1 :: gs''),
      c = sep ∨ isDigitChar c = true := by
    intro c hc
    rcases mkSepList_mem sep _ c hc with h | ⟨g, hg, hcg⟩
    · exact Or.inl h
    · exact Or.inr ((hgs g hg).2 c hcg)
  have hplain : ∀ c ∈ mkSepList sep ((d0 :: g0') :: g1 :: gs''), plainChar c := by
    intro c hc
    rcases hmem c hc with rfl | h
    · exact hsepPlain
    · exact Or.inl h
  have hLcons : mkSepList sep ((d0 :: g0') :: g1 :: gs'') =
      d0 :: (g0' ++ sep :: mkSepList sep (g1 :: gs'')) := by
    rw [mkSepList_cons₂]
    rfl
  have hclean : cleanedOf (String.mk (mkSepList sep ((d0 :: g0') :: g1 :: gs''))) =
      mkSepList sep ((d0 :: g0') :: g1 :: gs'') := cleanedOf_plain _ hplain
  have hnorm : normalizedOf (String.mk (mkSepList sep ((d0 :: g0') :: g1 :: gs''))) =
      mkSepList sep ((d0 :: g0') :: g1 :: gs'') := by
    rw [hLcons]
    rw [hLcons] at hplain
    refine normalizedOf_plain d0 _ hplain ?_
    intro c hc
    have hcmem : c ∈ mkSepList sep ((d0 :: g0') :: g1 :: gs'') := by
      rw [hLcons]
      exact List.mem_cons_of_mem d0 hc
    rcases hmem c hcmem with rfl | h
    · rcases hsep with rfl | rfl <;> decide
    · exact digit_ne_of_toNat c '-' h (by decide)
  have hdigitsNoSep : ∀ g ∈ (d0 :: g0') :: g1 :: gs'', ∀ c ∈ g, c ≠ sep := by
    intro g hg c hc
    have hd := (hgs g hg).2 c hc
    rcases hsep with rfl | rfl
    · exact digit_ne_of_toNat c ',' hd (by decide)
    · exact digit_ne_of_toNat c '.' hd (by decide)
  have hsplit : splitOnChar sep (mkSepList sep ((d0 :: g0') :: g1 :: gs'')) =
      (d0 :: g0') :: g1 :: gs'' :=
    split_mkSepList sep _ (List.cons_ne_nil _ _) hdigitsNoSep
  have hcsep : (mkSepList sep ((d0 :: g0') :: g1 :: gs'')).contains sep = true := by
    apply contains_eq_true_of
    rw [hLcons]
    exact List.mem_cons_of_mem d0 (List.mem_append_right g0' (List.mem_cons_self sep _))
  have hchoose : chooseDecimalSeparator (mkSepList sep ((d0 :: g0') :: g1 :: gs'')) hint =
      none := by
    apply chooseSep_none_multi sep _ hint ((d0 :: g0') :: g1 :: gs'') hsep hcsep hmem hsplit
    · simpa using hlast
    · simpa using hlen
  have hguard : ((mkSepList sep ((d0 :: g0') :: g1 :: gs'')).isEmpty ||
      !(mkSepList sep ((d0 :: g0') :: g1 :: gs'')).any isDigitChar) = false := by
    rw [hLcons]
    simp [hd0]
  have hfilter : (mkSepList sep ((d0 :: g0') :: g1 :: gs'')).filter
        (fun c => !(c = '.' || c = ',')) = ((d0 :: g0') :: g1 :: gs'').flatten :=
    filter_mkSepList sep hsep _ fun g hg => (hgs g hg).2
  have hflat : ((d0 :: g0') :: g1 :: gs'').flatten = d0 :: (g0' ++ (g1 :: gs'').flatten) := by
    simp
  have hdall : allDigits (d0 :: (g0' ++ (g1 :: gs'').flatten)) = true := by
    rw [← hflat]
    unfold allDigits
    rw [List.all_eq_true]
    intro c hc
    obtain ⟨g, hg, hcg⟩ := List.mem_flatten.mp hc
    exact (hgs g hg).2 c hcg
  have hne0 : ¬d0 = '-' := digit_ne_of_toNat d0 '-' hd0 (by decide)
  simp only [parseCurrencyString, hclean, hguard, Bool.false_eq_true, if_false, hnorm,
    hchoose, hfilter, hflat, hne0, hdall, ite_false, ite_true]

theorem parse_none_of_minus_decimal (s : String) (hint : NumberFormat) (sep : Char)
    (hhead : (normalizedOf s).head? = some '-')
    (hsep : chooseDecimalSeparator (normalizedOf s) hint = some sep) :
    parseCurrencyString s hint = none := by
  by_cases hguard : ((cleanedOf s).isEmpty || !(cleanedOf s).any isDigitChar) = true
  · simp only [parseCurrencyString, hguard, if_true]
  · have hguard' : ((cleanedOf s).isEmpty || !(cleanedOf s).any isDigitChar) = false := by
      rwa [Bool.not_eq_true] at hguard
    obtain ⟨rest, hrest⟩ : ∃ rest, normalizedOf s = '-' :: rest := by
      cases hn : normalizedOf s with
      | nil => rw [hn] at hhead; cases hhead
      | cons c t =>
        rw [hn] at hhead
        cases hhead
        exact ⟨t, rfl⟩
    have hsepcase := chooseSep_some_cases _ hint sep hsep
    have hne : ('-' : Char) ≠ sep := by rcases hsepcase with rfl | rfl <;> decide
    have hcond : ((((splitOnChar sep (normalizedOf s)).dropLast.flatten.filter
          fun c => !(c = '.' || c = ',')).isEmpty ||
        !allDigits ((splitOnChar sep (normalizedOf s)).dropLast.flatten.filter
          fun c => !(c = '.' || c = ','))) = true) := by
      rw [hrest, splitOnChar_cons_ne sep '-' rest hne]
      cases hM : splitOnChar sep rest with
      | nil => exact absurd hM (splitOnChar_ne_nil sep rest)
      | cons m0 mt =>
        cases mt with
        | nil =>
          rw [List.headD_cons, List.tail_cons]
          rfl
        | cons y ys =>
          rw [List.headD_cons, List.tail_cons, List.dropLast_cons₂, List.flatten_cons,
            List.cons_append, List.filter_cons]
          have hkeep : (!(('-' : Char) = '.' || ('-' : Char) = ',')) = true := by decide
          rw [if_pos hkeep]
          have hnd : allDigits ('-' :: List.filter (fun c => !(c = '.' || c = ','))
              (m0 ++ ((y :: ys).dropLast).flatten)) = false := by
            unfold allDigits
            rw [List.all_cons, show isDigitChar '-' = false from by decide,
              Bool.false_and]
          rw [hnd]
          rw [Bool.not_false, Bool.or_true]
    simp only [parseCurrencyString, hguard', Bool.false_eq_true, if_false, hsep]
    rw [hcond, Bool.true_or, Bool.true_or, if_pos rfl]

theorem parse_minus_digits (ds : List Char) (hint : NumberFormat)
    (hne : ds ≠ []) (hds : ∀ c ∈ ds, isDigitChar c = true) :
    parseCurrencyString (String.mk ('-' :: ds)) hint = some (-(digitsToNat ds : ℚ)) := by
  have hplain : ∀ c ∈ '-' :: ds, plainChar c := by
    intro c hc
    rcases List.mem_cons.mp hc with rfl | h
    · exact Or.inr (Or.inr (Or.inr rfl))
    · exact Or.inl (hds c h)
  have hclean : cleanedOf (String.mk ('-' :: ds)) = '-' :: ds := cleanedOf_plain _ hplain
  have hnorm : normalizedOf (String.mk ('-' :: ds)) = '-' :: ds :=
    normalizedOf_plain '-' ds hplain fun c hc => digit_ne_of_toNat c '-' (hds c hc) (by decide)
  have hc1 : ('-' :: ds).contains ',' = false := by
    apply contains_eq_false_of
    intro c hc
    rcases List.mem_cons.mp hc with rfl | h
    · decide
    · exact digit_ne_of_toNat c ',' (hds c h) (by decide)
  have hc2 : ('-' :: ds).contains '.' = false := by
    apply contains_eq_false_of
    intro c hc
    rcases List.mem_cons.mp hc with rfl | h
    · decide
    · exact digit_ne_of_toNat c '.' (hds c h) (by decide)
  have hchoose : chooseDecimalSeparator ('-' :: ds) hint = none :=
    chooseSep_none_of_no_seps _ hint hc1 hc2
  obtain ⟨d, ds', rfl⟩ : ∃ d ds', ds = d :: ds' := by
    cases ds with
    | nil => exact absurd rfl hne
    | cons a b => exact ⟨a, b, rfl⟩
  have hguard : (('-' :: d :: ds').isEmpty || !('-' :: d :: ds').any isDigitChar) = false := by
    simp [hds d (List.mem_cons_self d ds')]
  have hfilter : ('-' :: d :: ds').filter (fun c => !(c = '.' || c = ',')) = '-' :: d :: ds' :=
    List.filter_eq_self.mpr fun c hc => by
      rcases List.mem_cons.mp hc with rfl | h
      · decide
      · rcases List.mem_cons.mp h with rfl | h2
        · have hdg := hds c (List.mem_cons_self c ds')
          simp [digit_ne_of_toNat c '.' hdg (by decide),
            digit_ne_of_toNat c ',' hdg (by decide)]
        · have hdg := hds c (List.mem_cons_of_mem d h2)
          simp [digit_ne_of_toNat c '.' hdg (by decide),
            digit_ne_of_toNat c ',' hdg (by decide)]
  have hall : allDigits (d :: ds') = true := by
    unfold allDigits
    rw [List.all_eq_true]
    exact hds
  simp only [parseCurrencyString, hclean, hguard, Bool.false_eq_true, if_false, hnorm,
    hchoose, hfilter]
  simp [hall]

/-! ## The claims -/

/-- C1: on the receipt text with SUBTOTAL 45.00, TAX 4.50, TIP 2.00,
TOTAL 51.50, CASH 60.00 and CHANGE 8.50, the end-to-end extraction
(findAmountsInText, then per-candidate categorization, validation and
scoring, then selection) returns amount 51.5 with confidence above 0.7,
and in particular never selects 60 or 8.5. -/
theorem claim_endToEnd_receipt :
    (extractAmountsFromText c1ReceiptText).amount = 51.5 ∧
    (7 / 10 : ℚ) < (extractAmountsFromText c1ReceiptText).confidence ∧
    (extractAmountsFromText c1ReceiptText).amount ≠ 60 ∧
    (extractAmountsFromText c1ReceiptText).amount ≠ 8.5 := by
  have h : extractAmountsFromText c1ReceiptText =
      ⟨103 / 2, 49 / 50,
        [⟨45, "SUBTOTAL 45.00", 0⟩, ⟨9 / 2, "TAX 4.50", 1⟩, ⟨2, "TIP 2.00", 2⟩,
         ⟨103 / 2, "TOTAL 51.50", 3⟩, ⟨60, "CASH 60.00", 4⟩, ⟨17 / 2, "CHANGE 8.50", 5⟩],
        c1ReceiptText⟩ := by decide
  rw [h]
  refine ⟨by norm_num, by norm_num, by norm_num, by norm_num⟩

/-- C2: every amount returned by findAmountsInText is finite (vacuous
over the rationals), strictly positive and strictly below 100000, that
is, it satisfies isValidReceiptAmount. -/
theorem claim_findAmounts_validity (text : String) (a : ExtractedAmount)
    (ha : a ∈ findAmountsInText text) :
    0 < a.value ∧ a.value < 100000 ∧ isValidReceiptAmount a.value = true := by
  have h := findAmountsInText_valid text a ha
  have h2 := h
  unfold isValidReceiptAmount at h2
  simp only [Bool.and_eq_true, decide_eq_true_eq] at h2
  exact ⟨h2.1, h2.2, h⟩

/-- Witness for C2 at the text TOTAL 5.00 and its extracted candidate. -/
theorem claim_findAmounts_validity_witness :
    0 < (ExtractedAmount.mk 5 "TOTAL 5.00" 0).value ∧
    (ExtractedAmount.mk 5 "TOTAL 5.00" 0).value < 100000 ∧
    isValidReceiptAmount (ExtractedAmount.mk 5 "TOTAL 5.00" 0).value = true :=
  claim_findAmounts_validity "TOTAL 5.00" ⟨5, "TOTAL 5.00", 0⟩ (by decide)

/-- C4 counterexample: with six subtotal candidates the code only
combines the five most recent, while the claim's bestRatio over all
combinations matches the oldest one exactly; at proposed total 50 the
code rejects with confidence 0 while the claim's reading yields valid
with confidence 0.96. -/
theorem claim_validator_counterexample :
    validateTotalRelationship 50 c4ManySubtotals = ⟨false, 0⟩ ∧
    claimValidate 50 c4ManySubtotals = ⟨true, 24 / 25⟩ := by
  constructor <;> decide

/-- C4 (amended): validateTotalRelationship returns invalid with
confidence 0 without a subtotal-keyword candidate; otherwise, with
bestRatio the minimum relative error over the combinations drawn from
the up-to-5 most recent subtotal, tax and tip candidates (tax and tip
options including 0, non-positive expected totals skipped), it returns
confidence 0.96, 0.90 or 0.80 at the 0.02, 0.05 and 0.10 tiers, and
otherwise returns valid with confidence 0.65 exactly when no
combination achieved two percent error and the proposed total lies
within 0.95 to 1.35 times the latest subtotal, else invalid with 0.
In particular validating 51.5 against subtotal 45, tax 4.5 and tip 2
is valid with confidence at least 0.9, and validating 80 is invalid
with confidence 0. -/
theorem claim_validator_amended :
    (∀ (total : ℚ) (allAmounts : List ExtractedAmount),
        validateTotalRelationship total allAmounts = specAmendedValidate total allAmounts) ∧
    (validateTotalRelationship (103 / 2) c4TestAmounts).valid = true ∧
    (9 / 10 : ℚ) ≤ (validateTotalRelationship (103 / 2) c4TestAmounts).confidence ∧
    validateTotalRelationship 80 c4TestAmounts = ⟨false, 0⟩ := by
  refine ⟨validate_eq_specAmended, by decide, by decide, by decide⟩

/-- C5: parseCurrencyString reads the malformed token 1,234,56 with
two commas as 1234.56 (the last comma is the decimal separator) and
the apostrophe-grouped token as 1234.56. -/
theorem claim_parse_malformed :
    parseCurrencyString twoCommaToken = some 1234.56 ∧
    parseCurrencyString aposToken = some 1234.56 := by
  constructor <;> decide

/-- C6: a candidate whose context carries a payment keyword at word
boundaries is categorized as payment, whatever else the context holds,
payment being the first rule in priority order. -/
theorem claim_payment_priority (a : ExtractedAmount) (allAmounts : List ExtractedAmount)
    (h : reTest paymentRE (upperStr a.context) = true) :
    (categorizeAmount a allAmounts).category = Category.payment := by
  simp [categorizeAmount, h, withCategory]

/-- Witness for C6 at the CASH 50.00 candidate amid a total, cash and
change set. -/
theorem claim_payment_priority_witness :
    (categorizeAmount ⟨50, "CASH 50.00", 6⟩
      [⟨37.2, "TOTAL 37.20", 5⟩, ⟨50, "CASH 50.00", 6⟩, ⟨12.8, "CHANGE 12.80", 7⟩]).category =
      Category.payment :=
  claim_payment_priority _ _ (by decide)

/-- C7: detectNumberFormat returns us below three tokens, otherwise
tallies tokens as european-leaning or us-leaning and answers european
exactly when the european tally beats 1.5 times the us tally, us in
the mirror case and mixed otherwise; on the European-styled receipt it
answers european, and us on the US-styled equivalent. -/
theorem claim_detect_format :
    (∀ text : String, detectNumberFormat text = specDetect text) ∧
    detectNumberFormat "SUBTOTAL 1.234,00\nTAX 12,34\nTOTAL 1.246,34" =
      NumberFormat.european ∧
    detectNumberFormat "SUBTOTAL 1,234.00\nTAX 12.34\nTOTAL 1,246.34" =
      NumberFormat.us := by
  refine ⟨?_, by decide, by decide⟩
  intro text
  simp only [detectNumberFormat, specDetect]
  by_cases h : (detectTokensOf text).length < 3
  · simp [h]
  · rw [if_neg h, if_neg h, foldl_detectStep (detectTokensOf text) 0 0]
    simp

/-- C8 counterexample: in the session where the normal pass's logger
reaches 100, a retry bumps the floor to 50 and the high-contrast
pass's logger reports 2, the displayed progress sequence is
0, 100, 100, 2, which decreases; the logger forwards raw values, so
reporting is not monotonic-only as claimed. -/
theorem claim_progress_counterexample :
    progressStates 0 (sessionEvents [100] [2] [] true false) = [0, 100, 100, 2] ∧
    nonDecreasingB (progressStates 0 (sessionEvents [100] [2] [] true false)) = false := by
  constructor <;> decide

/-- C8 (amended): only the inter-pass floors of processImage are
monotonic, raising the progress to the maximum of its old value and
the floor; an OCR logger report for the current request is forwarded
unconditionally, so a later pass restarting near zero lowers the
displayed progress. -/
theorem claim_progress_amended :
    ∀ p t v : Nat,
      applyProgressEvent p (ProgressEvent.interPassFloor t) = max p t ∧
      p ≤ applyProgressEvent p (ProgressEvent.interPassFloor t) ∧
      applyProgressEvent p (ProgressEvent.ocrReport true v) = v := by
  intro p t v
  exact ⟨rfl, Nat.le_max_left p t, rfl⟩

/-- C9 counterexample: 1,234,56 holds only commas, more than once, yet
parseCurrencyString does not strip them all as thousands separators:
the last comma acts as a decimal separator and the result 1234.56 has
a fractional part. -/
theorem claim_thousands_counterexample :
    parseCurrencyString twoCommaToken = some (30864 / 25) ∧
    ((30864 : ℚ) / 25).den ≠ 1 := by
  constructor <;> decide

/-- C9 (amended): when one kind of separator occurs more than once and
the group after the last occurrence has at least three digits, every
occurrence is stripped as a thousands separator and the result is the
plain integer of the concatenated digit groups, with no fractional
part. -/
theorem claim_thousands_amended (sep : Char) (gs : List (List Char)) (hint : NumberFormat)
    (hsep : sep = ',' ∨ sep = '.') (hlen : 3 ≤ gs.length)
    (hgs : ∀ g ∈ gs, g ≠ [] ∧ ∀ c ∈ g, isDigitChar c = true)
    (hlast : 3 ≤ (gs.getLastD []).length) :
    parseCurrencyString (String.mk (mkSepList sep gs)) hint =
      some ((digitsToNat gs.flatten : ℕ) : ℚ) :=
  parse_multiSep_thousands sep gs hint hsep hlen hgs hlast

/-- Witness for the amended C9 at the token 1,234,567. -/
theorem claim_thousands_amended_witness :
    parseCurrencyString (String.mk (mkSepList ',' [['1'], ['2', '3', '4'], ['5', '6', '7']]))
      NumberFormat.mixed = some 1234567 := by
  rw [claim_thousands_amended ',' [['1'], ['2', '3', '4'], ['5', '6', '7']]
    NumberFormat.mixed (Or.inl rfl) (by decide) (by decide) (by decide)]
  decide

/-- C10: negative inputs parse asymmetrically: whenever the normalized
input keeps a leading minus and a decimal separator is resolved, the
parse returns none, since the minus survives stripping and fails the
digits-only check on the integer part; a minus sign followed by digits
with no separator parses on the integer path to the negation of the
digits value, a non-positive number, negative whenever the digits are
not all zero. -/
theorem claim_minus_asymmetry :
    (∀ (s : String) (hint : NumberFormat) (sep : Char),
        (normalizedOf s).head? = some '-' →
        chooseDecimalSeparator (normalizedOf s) hint = some sep →
        parseCurrencyString s hint = none) ∧
    (∀ (ds : List Char) (hint : NumberFormat), ds ≠ [] →
        (∀ c ∈ ds, isDigitChar c = true) →
        parseCurrencyString (String.mk ('-' :: ds)) hint = some (-(digitsToNat ds : ℚ)) ∧
        -((digitsToNat ds : ℕ) : ℚ) ≤ 0 ∧
        (digitsToNat ds ≠ 0 → -((digitsToNat ds : ℕ) : ℚ) < 0)) := by
  constructor
  · exact parse_none_of_minus_decimal
  · intro ds hint hne hds
    refine ⟨parse_minus_digits ds hint hne hds, ?_, ?_⟩
    · simp
    · intro h0
      have hpos : (0 : ℚ) < ((digitsToNat ds : ℕ) : ℚ) := by
        exact_mod_cast Nat.pos_of_ne_zero h0
      linarith

/-- Witness for C10 at the inputs -12.34 and -12. -/
theorem claim_minus_asymmetry_witness :
    parseCurrencyString "-12.34" NumberFormat.mixed = none ∧
    parseCurrencyString "-12" NumberFormat.mixed = some (-12) := by
  constructor
  · exact claim_minus_asymmetry.1 "-12.34" NumberFormat.mixed '.' (by decide) (by decide)
  · have h := (claim_minus_asymmetry.2 ['1', '2'] NumberFormat.mixed (by decide) (by decide)).1
    have he : String.mk ['-', '1', '2'] = "-12" := by decide
    rw [he] at h
    rw [h]
    decide

/-- C3: the extraction returns amount 0 exactly when there are no
candidates or the best candidate score stays below the acceptance
threshold 1.2; in that rejection case the confidence is the best score
quartered and clamped into the 0.1 to 0.35 band when a best candidate
exists, and 0 with no candidates at all. -/
theorem claim_zeroAmount_iff (text : String) :
    ((extractAmountsFromText text).amount = 0 ↔
      (findAmountsInText text = [] ∨ ∃ m, bestScoreOf text = some m ∧ m < 6 / 5)) ∧
    ((extractAmountsFromText text).amount = 0 →
      (extractAmountsFromText text).confidence =
        match bestScoreOf text with
        | none => 0
        | some m => max (1 / 10) (min (7 / 20) (m / 4))) := by
  rcases hfind : findAmountsInText text with _ | ⟨a0, arest⟩
  · have hscored : bestScoreOf text = none := by
      unfold bestScoreOf
      rw [(scoredOf_eq_nil_iff text).mpr hfind]
      rfl
    have hex : extractAmountsFromText text = ⟨0, 0, [], text⟩ := by
      simp only [extractAmountsFromText, hfind]
    rw [hex, hscored]
    exact ⟨⟨fun _ => Or.inl rfl, fun _ => rfl⟩, fun _ => rfl⟩
  · rcases hrank : rankedOf text with _ | ⟨best, rest⟩
    · exact absurd ((rankedOf_eq_nil_iff text).mp hrank) (by rw [hfind]; simp)
    · have hbs : bestScoreOf text = some best.score := rankedOf_head_score text best rest hrank
      by_cases hlt : best.score < 6 / 5
      · have hex : extractAmountsFromText text =
            ⟨0, max (1 / 10) (min (7 / 20) (best.score / 4)), a0 :: arest, text⟩ := by
          simp only [extractAmountsFromText, hfind, hrank, if_pos hlt]
        rw [hex, hbs]
        exact ⟨⟨fun _ => Or.inr ⟨best.score, rfl, hlt⟩, fun _ => rfl⟩, fun _ => rfl⟩
      · have hpos : 0 < best.value :=
          rankedOf_value_pos text best (hrank ▸ List.mem_cons_self best rest)
        have hex : (extractAmountsFromText text).amount = best.value := by
          simp only [extractAmountsFromText, hfind, hrank, if_neg hlt]
        constructor
        · rw [hex]
          constructor
          · intro h; exact absurd h (ne_of_gt hpos)
          · intro h
            rcases h with h | ⟨m, hm, hmlt⟩
            · exact absurd h (List.cons_ne_nil a0 arest)
            · rw [hbs] at hm
              cases hm
              exact absurd hmlt hlt
        · intro h
          rw [hex] at h
          exact absurd h (ne_of_gt hpos)

/-- Witness for C3 at the payment-only text CASH 40.00 and
CHANGE 12.50: the amount is rejected and the confidence clamps to
0.1. -/
theorem claim_zeroAmount_iff_witness :
    (extractAmountsFromText "CASH 40.00\nCHANGE 12.50").amount = 0 ∧
    (extractAmountsFromText "CASH 40.00\nCHANGE 12.50").confidence = 1 / 10 := by
  have h0 : (extractAmountsFromText "CASH 40.00\nCHANGE 12.50").amount = 0 := by decide
  have hc := (claim_zeroAmount_iff "CASH 40.00\nCHANGE 12.50").2 h0
  have hb : bestScoreOf "CASH 40.00\nCHANGE 12.50" = some (-(31 / 80)) := by decide
  rw [hb] at hc
  refine ⟨h0, ?_⟩
  rw [hc]
  decide
